import Mathlib

/-!
Shallow embedding of the scrunch client library (scrunch/datasets.py):
the hierarchical order/tree subsystem (`Order`, `Group`), the exclusion
filter request builder (`Dataset.exclude`), the `case` expression builder
(`case_expr`), category-map validation and the dataset attribute/item
access protocol.  JSON documents exchanged with the remote service are
modelled by the inductive `JVal`; stateful code is modelled by explicit
state passing, with remote requests collected in an explicit list.
-/

namespace Scrunch

/-- JSON values, as produced and consumed by the library when it builds
Shoji payloads (dicts are ordered key/value lists, as in Python). -/
inductive JVal where
  | null
  | bool (b : Bool)
  | num (n : Int)
  | str (s : String)
  | arr (elems : List JVal)
  | obj (fields : List (String × JVal))
deriving Repr, BEq

/-- `case_expr(rules, name, alias)` from datasets.py: builds the `case`
function expression used to derive a categorical variable.  The `rules`
argument is appended unchanged as the second element of `args`. -/
def caseCategory (id : Int) (name : String) (selected : Bool) : JVal :=
  .obj [ ("id", .num id), ("name", .str name), ("missing", .bool false)
       , ("numeric_value", .null), ("selected", .bool selected) ]

def caseFixedArg : JVal :=
  .obj [ ("column", .arr [.num 1, .num 2])
       , ("type", .obj [("value", .obj
           [ ("class", .str "categorical")
           , ("categories", .arr
               [ caseCategory 1 "Selected" true
               , caseCategory 2 "Not selected" false ]) ])]) ]

def case_expr (rules : JVal) (name alias_ : String) : JVal :=
  let expression : List (String × JVal) :=
    [ ("references", .obj [("name", .str name), ("alias", .str alias_)])
    , ("function", .str "case")
    , ("args", .arr [caseFixedArg]) ]
  -- expression['args'].append(rules)
  .obj (expression.map (fun f =>
    if f.1 = "args" then
      match f.2 with
      | .arr xs => ("args", .arr (xs ++ [rules]))
      | v => ("args", v)
    else f))

/-- Looks up a key in an ordered dict (first matching entry). -/
def lookupKey (k : String) : List (String × JVal) → Option JVal
  | [] => none
  | (k1, v) :: rest => if k1 = k then some v else lookupKey k rest

/-- The argument accepted by `Dataset.exclude`: `None`, a string to be
parsed, or any other object passed through unchanged. -/
inductive ExcludeArg where
  | noExpr
  | exprStr (s : String)
  | exprObj (v : JVal)

/-- A PATCH request as issued through the session. -/
structure PatchRequest where
  url : String
  body : JVal
deriving Repr, BEq

/-- `Dataset.exclude` from datasets.py.  `parse_expr` and `process_expr`
live in scrunch/expressions.py (not part of the sources under study) and
are taken as parameters. -/
def exclude (parse_expr : String → JVal) (process_expr : JVal → JVal)
    (exclusionUrl : String) (arg : ExcludeArg) : PatchRequest :=
  let expr_obj : JVal :=
    match arg with
    | .exprStr s => process_expr (parse_expr s)
    | .noExpr => .obj []
    | .exprObj v => v
  { url := exclusionUrl, body := .obj [("expression", expr_obj)] }

/-- Python exceptions raised by the modelled functions. -/
inductive PyErr where
  | valueError (msg : String)
  | typeError (msg : String)
  | notImplementedError (msg : String)
  | attributeError (msg : String)
  | pendingDeprecationWarning (msg : String)
deriving Repr, BEq

/-- `validate_category_map` from datasets.py: its first executable
statement is `raise PendingDeprecationWarning(...)`; the rebuilding code
after it is unreachable. -/
def validate_category_map (map : List (Int × JVal)) :
    Except PyErr (List JVal) :=
  Except.error (.pendingDeprecationWarning "Does not use the new input format")

/-- The rebuilding loop that follows the unconditional raise in
`validate_category_map` (dead code in the source, modelled separately so
that the claim "it never returns the list its docstring describes" is
about `validate_category_map` itself). -/
def validate_category_map_deadCode (map : List (Int × JVal)) : List JVal :=
  map.map (fun kv =>
    match kv.2 with
    | .obj fields => .obj (fields ++ [("id", .num kv.1)])
    | v => v)

/-- A Dataset, reduced to the pieces `__getattr__`/`__getitem__` consult:
the entity body and the variable catalog indexed by alias (variables are
modelled by their entity URL). -/
structure DatasetModel where
  name : String
  body : List (String × JVal)
  variablesByAlias : List (String × String)

/-- `Dataset._ENTITY_ATTRIBUTES` = `_MUTABLE_ATTRIBUTES + _IMMUTABLE_ATTRIBUTES`. -/
def ENTITY_ATTRIBUTES : List String :=
  ["name", "notes", "description", "is_published", "archived",
   "end_date", "start_date", "id", "creation_time", "modification_time"]

/-- Looks up an alias in the variable catalog. -/
def lookupAlias (k : String) : List (String × String) → Option String
  | [] => none
  | (k1, v) :: rest => if k1 = k then some v else lookupAlias k rest

/-- Outcome of `Dataset.__getattr__`. -/
inductive AttrResult where
  | value (v : JVal)
  | attributeError (msg : String)
deriving Repr, BEq

/-- Outcome of `Dataset.__getitem__` (a Variable wrapper or ValueError). -/
inductive ItemResult where
  | variableWrapper (entityUrl : String)
  | valueError (msg : String)
deriving Repr, BEq

/-- `Dataset.__getattr__` from datasets.py. -/
def dataset_getattr (ds : DatasetModel) (item : String) : AttrResult :=
  if item ∈ ENTITY_ATTRIBUTES then
    .value ((lookupKey item ds.body).getD .null)  -- "Has to exist"
  else
    match lookupAlias item ds.variablesByAlias with
    | none =>
        .attributeError ("Dataset " ++ ds.name ++ " has no attribute " ++ item)
    | some _ =>
        .attributeError "Dataset variables should be accessed like a dictionary"

/-- `Dataset.__getitem__` from datasets.py. -/
def dataset_getitem (ds : DatasetModel) (item : String) : ItemResult :=
  match lookupAlias item ds.variablesByAlias with
  | none => .valueError ("Dataset " ++ ds.name ++ " has no variable " ++ item)
  | some v => .variableWrapper v

/-! ## The hierarchical order tree (`Group`, `Order`)

A `Group`'s `elements` is an ordered dict whose values are either
variable references (Python stores the variable id string, or a
`Variable` object carrying the same id — both are modelled by `varId`)
or nested `Group` objects.  Python's object graph with parent pointers
is modelled by the root node plus key paths from the root. -/

/-- A node of the local hierarchical order tree. -/
inductive GElem where
  | varId (id : String)
  | grp (name : String) (elems : List (String × GElem))
deriving Repr, BEq

/-- The `elements` dict of a node (empty for a variable). -/
def elemsOf : GElem → List (String × GElem)
  | .varId _ => []
  | .grp _ es => es

/-- Ordered-dict lookup `d[k]`. -/
def gLookup (k : String) : List (String × GElem) → Option GElem
  | [] => none
  | (k1, v) :: rest => if k1 = k then some v else gLookup k rest

/-- Ordered-dict assignment `d[k] = v`: an existing key keeps its
position and gets the new value, a new key is appended. -/
def upsert (k : String) (v : GElem) : List (String × GElem) → List (String × GElem)
  | [] => [(k, v)]
  | (k1, v1) :: rest =>
      if k1 = k then (k, v) :: rest else (k1, v1) :: upsert k v rest

/-- Ordered-dict deletion `del d[k]` (no-op when the key is absent;
Python would raise KeyError, which never happens at the call sites). -/
def eraseKey (k : String) : List (String × GElem) → List (String × GElem)
  | [] => []
  | (k1, v1) :: rest =>
      if k1 = k then rest else (k1, v1) :: eraseKey k rest

/-- Deduplication of a name list, keeping first occurrences — the effect
of inserting the names into an `OrderedDict` one by one. -/
def dedupKeys : List String → List String
  | [] => []
  | x :: rest => x :: (dedupKeys rest).filter (fun y => y ≠ x)

/-- Resolves a key path from a node. -/
def getAt : GElem → List String → Option GElem
  | g, [] => some g
  | .grp _ es, k :: p =>
      match gLookup k es with
      | some e => getAt e p
      | none => none
  | .varId _, _ :: _ => none

/-- Applies a transformation to the `elements` dict of the node at a key
path (no-op on an unresolvable path — in Python the mutation goes
through an object reference and the path always resolves). -/
def modifyElemsAt : GElem → List String → (List (String × GElem) → List (String × GElem)) → GElem
  | .grp n es, [], f => .grp n (f es)
  | .varId i, [], _ => .varId i
  | .grp n es, k :: p, f =>
      .grp n (es.map (fun e => if e.1 = k then (e.1, modifyElemsAt e.2 p f) else e))
  | .varId i, _ :: _, _ => .varId i

/-- `Group.find(name)` from datasets.py: depth-first scan of the elements;
a sub-Group entry is descended into before later entries are examined, a
non-Group entry whose key matches returns the group containing it.  Here
the result is the key path of the containing group. -/
def findIn (name : String) : List (String × GElem) → Option (List String)
  | [] => none
  | (k, .grp _ es) :: rest =>
      match findIn name es with
      | some p => some (k :: p)
      | none => findIn name rest
  | (k, .varId _) :: rest =>
      if k = name then some [] else findIn name rest

/-- `Group.find_group(name)` from datasets.py, started at a group with the
given name and elements: matches the group itself first, then scans
sub-Groups depth-first.  The result is the key path of the found group. -/
def findGroupIn (target : String) (selfName : String) (es : List (String × GElem)) :
    Option (List String) :=
  if selfName = target then some [] else findGroupAux target es
where
  findGroupAux (target : String) : List (String × GElem) → Option (List String)
    | [] => none
    | (k, .grp n es) :: rest =>
        match findGroupIn target n es with
        | some p => some (k :: p)
        | none => findGroupAux target rest
    | (_, .varId _) :: rest => findGroupAux target rest

/-- `Order._build_graph_structure` from datasets.py (inner `_get`): a
sub-Group becomes `{name: [...]}`, a variable entry becomes the string
`'../<id>/'`. -/
def buildElems : List (String × GElem) → List JVal
  | [] => []
  | (_, .varId i) :: rest => .str ("../" ++ i ++ "/") :: buildElems rest
  | (_, .grp n es) :: rest => .obj [(n, .arr (buildElems es))] :: buildElems rest

/-- `Order._build_graph_structure` starts `_get` at `self.graph`, the
root group of the whole local tree. -/
def buildGraphStructure (root : GElem) : List JVal :=
  buildElems (elemsOf root)

/-- The payload `{'element': 'shoji:order', 'graph': ...}` that
`Order.update` PUTs to the hier resource. -/
def orderPayload (root : GElem) : JVal :=
  .obj [("element", .str "shoji:order"), ("graph", .arr (buildGraphStructure root))]


/-- Python's `s.split('/')`: splits at every slash, keeping empty
segments. -/
def splitSlashGo : List Char → List Char → List String
  | [], acc => [String.mk acc.reverse]
  | c :: rest, acc =>
      if c = '/' then String.mk acc.reverse :: splitSlashGo rest []
      else splitSlashGo rest (c :: acc)

/-- `element.split('/')` on a string. -/
def splitSlash (s : String) : List String :=
  splitSlashGo s.data []

/-- `element.split('/')[-2]` from `Group.__init__`: the second-to-last
segment of a variable URL (Python raises IndexError when fewer than two
segments exist; callers only pass URLs of the form `.../<id>/`). -/
def urlId (s : String) : String :=
  let parts := splitSlash s
  parts.getD (parts.length - 2) ""

/-- The element-loading loop of `Group.__init__` from datasets.py, for
elements coming from the remote graph JSON: a string element is a
variable URL — its id is looked up in the order's variable catalog
(`self.order.vars`, modelled as an id→alias list) and, when found, stored
under the variable's alias (ids absent from the catalog are silently
skipped); a dict element `{name: [...]}` becomes a sub-Group keyed by its
name.  Elements of any other shape are not produced by the remote graph
resource.  `acc` is the `elements` ordered dict under construction. -/
def loadElements (vars : List (String × String)) :
    List JVal → List (String × GElem) → List (String × GElem)
  | [], acc => acc
  | .str s :: rest, acc =>
      match lookupAlias (urlId s) vars with
      | some al => loadElements vars rest (upsert al (.varId (urlId s)) acc)
      | none => loadElements vars rest acc
  | .obj ((n, .arr sub) :: _) :: rest, acc =>
      loadElements vars rest (upsert n (.grp n (loadElements vars sub [])) acc)
  | _ :: rest, acc => loadElements vars rest acc

/-- Whether `Group.__init__` consults `self.order.vars` at all while
loading a graph (it does so once per string element, at any depth). -/
def touchesVars : List JVal → Bool
  | [] => false
  | .str _ :: _ => true
  | .obj ((_, .arr sub) :: _) :: rest => touchesVars sub || touchesVars rest
  | _ :: rest => touchesVars rest

/-! ## Round trip of the tree encoding (spec side) -/

/-- Written from the claim's words, for the round-trip comparison: "the
same nested structure: the same group names, variable ids rendered as
`'../<id>/'`, in the same order at every level". -/
def renderList : List JVal → List JVal
  | [] => []
  | .str s :: rest => .str ("../" ++ urlId s ++ "/") :: renderList rest
  | .obj ((n, .arr sub) :: _) :: rest => .obj [(n, .arr (renderList sub))] :: renderList rest
  | v :: rest => v :: renderList rest

/-- The shape the claim quantifies over: every element is a variable-URL
string `.../<id>/` whose id is in the catalog, or a one-key dict
`{name: [...]}` of the same shape recursively. -/
def goodElems (vars : List (String × String)) : List JVal → Bool
  | [] => true
  | .str s :: rest =>
      decide (2 ≤ (splitSlash s).length) &&
      (lookupAlias (urlId s) vars).isSome && goodElems vars rest
  | .obj [(_, .arr sub)] :: rest => goodElems vars sub && goodElems vars rest
  | _ :: _ => false

/-- The ordered-dict key each graph element is stored under by
`Group.__init__`: the catalog alias of a variable URL, the group name of
a dict. -/
def graphKeys (vars : List (String × String)) : List JVal → List String
  | [] => []
  | .str s :: rest =>
      (match lookupAlias (urlId s) vars with
       | some al => [al]
       | none => []) ++ graphKeys vars rest
  | .obj ((n, _) :: _) :: rest => n :: graphKeys vars rest
  | _ :: rest => graphKeys vars rest

/-- Pairwise distinctness of a key list. -/
def distinctKeys : List String → Bool
  | [] => true
  | x :: rest => !(rest.contains x) && distinctKeys rest

/-- Per-level distinctness of the derived dict keys of a graph. -/
def levelsDistinct (vars : List (String × String)) : List JVal → Bool
  | [] => true
  | .obj ((_, .arr sub) :: _) :: rest =>
      (distinctKeys (graphKeys vars sub) && levelsDistinct vars sub) &&
      levelsDistinct vars rest
  | _ :: rest => levelsDistinct vars rest

/-! ## `Order` state: lazy attribute resolution, caching, update -/

/-- The remote hier resource payload (`shoji:order`): its `graph`. -/
structure HierPayload where
  graph : List JVal
deriving Repr, BEq

/-- The remote state an `Order` synchronizes against: the hier resource
and the dataset's variable catalog indexed by id (each variable tuple is
modelled by its alias). -/
structure Remote where
  hier : HierPayload
  varsCatalog : List (String × String)

/-- The three cache fields of `Order` (`_hier`, `_vars`, `_graph`),
initialized to `None` by `Order.__init__`. -/
structure OrderState where
  hierCache : Option HierPayload
  varsCache : Option (List (String × String))
  graphCache : Option GElem
deriving Repr, BEq

/-- `Order.__init__`: all three caches start out empty. -/
def OrderState.init : OrderState :=
  { hierCache := none, varsCache := none, graphCache := none }

/-- Remote requests issued by the modelled code. -/
inductive Request where
  | getHier
  | getVars
  | putOrder (payload : JVal)
deriving Repr, BEq

/-- The request issued by a successful `self.order.update()` after a
mutating operation: one PUT of the payload rebuilt from the entire local
tree starting at the root group. -/
def updateRequest (root : GElem) : List Request :=
  [.putOrder (orderPayload root)]

/-- Result of reading a lazily-cached attribute: the value, the state
after the access, and the requests issued by the access. -/
structure Accessed (α : Type) where
  value : α
  state : OrderState
  requests : List Request

/-- The `Order.hier` property: `self._load_hier()` (a session GET of the
hier resource) only when `self._hier is None`. -/
def hierProp (rem : Remote) (st : OrderState) : Accessed HierPayload :=
  match st.hierCache with
  | some h => { value := h, state := st, requests := [] }
  | none =>
      { value := rem.hier
      , state := { st with hierCache := some rem.hier }
      , requests := [.getHier] }

/-- The `Order.vars` property: `self._load_vars()` (the dataset's
variable catalog, `variables.by('id')`) only when `self._vars is None`. -/
def varsProp (rem : Remote) (st : OrderState) : Accessed (List (String × String)) :=
  match st.varsCache with
  | some v => { value := v, state := st, requests := [] }
  | none =>
      { value := rem.varsCatalog
      , state := { st with varsCache := some rem.varsCatalog }
      , requests := [.getVars] }

/-- `Order._load_graph`: builds `Group({'__root__': self.hier.graph})`.
Reading `self.hier` may fetch; the `Group` constructor reads
`self.order.vars` once per string element of the graph, so the variable
catalog is fetched iff the graph contains a string element and `_vars`
is still `None`. -/
def loadGraph (rem : Remote) (st : OrderState) : Accessed GElem :=
  let ah := hierProp rem st
  if touchesVars ah.value.graph then
    let av := varsProp rem ah.state
    let g := GElem.grp "__root__" (loadElements av.value ah.value.graph [])
    { value := g
    , state := { av.state with graphCache := some g }
    , requests := ah.requests ++ av.requests }
  else
    let g := GElem.grp "__root__" (loadElements [] ah.value.graph [])
    { value := g
    , state := { ah.state with graphCache := some g }
    , requests := ah.requests }

/-- The `Order.graph` property: `self._load_graph()` only when
`self._graph is None`. -/
def graphProp (rem : Remote) (st : OrderState) : Accessed GElem :=
  match st.graphCache with
  | some g => { value := g, state := st, requests := [] }
  | none => loadGraph rem st

/-- Result of `Order.update`. -/
inductive UpdateResult where
  | ok
  | orderUpdateError
deriving Repr, BEq

/-- `Order.update` from datasets.py: PUTs
`{'element': 'shoji:order', 'graph': self._build_graph_structure()}` to
the hier resource (accessing the `graph` and `hier` properties on the
way); if the PUT fails with a client or server error, all three caches
are discarded, the graph is reloaded from the remote, and
`OrderUpdateError` is raised.  `putFails` says whether the remote
answers the PUT with a client/server error. -/
def orderUpdate (rem : Remote) (putFails : Bool) (st : OrderState) :
    UpdateResult × OrderState × List Request :=
  let ag := graphProp rem st
  let payload := orderPayload ag.value
  let ah := hierProp rem ag.state     -- `self.hier.put(...)`
  if putFails then
    let cleared : OrderState := OrderState.init
    let reload := loadGraph rem cleared
    (.orderUpdateError, reload.state,
      ag.requests ++ ah.requests ++ [.putOrder payload] ++ reload.requests)
  else
    (.ok, ah.state, ag.requests ++ ah.requests ++ [.putOrder payload])

/-! ## The mutating Group operations

Python mutates a shared object graph; here every operation acts on the
root node, with the acting group identified by its key path `p`.
Mutations of other groups (migrations) are applied by path, in program
order.  Values captured by the Python code through object references are
captured here at resolution time; variable values are immutable strings,
so this is observationally the same except when a migrated group itself
contains another migrated element. -/

/-- The name of a group node. -/
def nameOf : GElem → String
  | .varId _ => ""
  | .grp n _ => n

/-- `self.name = name` on a group object. -/
def setGName (g : GElem) (n : String) : GElem :=
  match g with
  | .varId i => .varId i
  | .grp _ es => .grp n es

/-- How one name given to `Group.move` resolves (`'__move__'`,
`'__migrate_var__'`, `'__migrate_group__'` in the source). -/
inductive MoveTag where
  | moveHere (obj : GElem)
  | migrateVar (gpath : List String) (obj : GElem)
  | migrateGroup (gpath : List String) (obj : GElem)
deriving Repr, BEq

/-- The object a tag carries into the reassembled dict. -/
def tagObj : MoveTag → GElem
  | .moveHere o => o
  | .migrateVar _ o => o
  | .migrateGroup _ o => o

/-- The element-resolution step of `Group.move`: in this group's
elements, else a variable found anywhere (`self.order.find`), else a
group found anywhere (`self.order.find_group`), else unresolvable
(ValueError in the source). -/
def resolveElement (root : GElem) (ges : List (String × GElem)) (name : String) :
    Option MoveTag :=
  match gLookup name ges with
  | some obj => some (.moveHere obj)
  | none =>
      match findIn name (elemsOf root) with
      | some q =>
          (getAt root q).bind fun cg =>
            (gLookup name (elemsOf cg)).map (.migrateVar q)
      | none =>
          match findGroupIn name (nameOf root) (elemsOf root) with
          | some q => (getAt root q).map (.migrateGroup q)
          | none => none

/-- Resolves every name; `none` as soon as one is unresolvable. -/
def resolveAll (root : GElem) (ges : List (String × GElem)) :
    List String → Option (List (String × MoveTag))
  | [] => some []
  | n :: rest =>
      match resolveElement root ges n with
      | some t => (resolveAll root ges rest).map (fun l => (n, t) :: l)
      | none => none

/-- The deletions `Group.move` performs at its insertion point: a
migrated variable is deleted from its current group, a migrated group
from its original parent (`del orig_parent.elements[element_name]`). -/
def performMigrations (root : GElem) : List (String × MoveTag) → GElem
  | [] => root
  | (_, .moveHere _) :: rest => performMigrations root rest
  | (n, .migrateVar q _) :: rest =>
      performMigrations (modifyElemsAt root q (eraseKey n)) rest
  | (n, .migrateGroup q _) :: rest =>
      performMigrations (modifyElemsAt root q.dropLast (eraseKey n)) rest

/-- The reassembly loop of `Group.move` (`while i <= total`): at
`i == position` all moved entries are written into the new dict; any
other iteration pops the next non-targeted entry, when one remains. -/
def assembleLoop (entries : List (String × GElem)) (position : Nat) :
    Nat → Nat → List (String × GElem) → List (String × GElem) → List (String × GElem)
  | _, 0, _, acc => acc
  | i, steps + 1, nonTargeted, acc =>
      if i = position then
        assembleLoop entries position (i + 1) steps nonTargeted
          (entries.foldl (fun a e => upsert e.1 e.2 a) acc)
      else
        match nonTargeted with
        | [] => assembleLoop entries position (i + 1) steps [] acc
        | e :: rest => assembleLoop entries position (i + 1) steps rest (upsert e.1 e.2 acc)

/-- `Group.move(elements, position)` from datasets.py, acting on the
group at path `p`. -/
def moveOp (root : GElem) (p : List String) (elements : List String) (position : Int) :
    Except PyErr (GElem × List Request) :=
  match getAt root p with
  | some (.grp _ ges) =>
      if position < -1 || (ges.length : Int) < position then
        .error (.valueError "Invalid position")
      else
        let pos : Nat := if position = -1 then ges.length else position.toNat
        let names := dedupKeys elements
        match resolveAll root ges names with
        | none => .error (.valueError "Invalid alias/group name")
        | some tagged =>
            let nonTargeted := ges.filter (fun e => !(names.contains e.1))
            let total := nonTargeted.length + tagged.length
            let root1 := performMigrations root tagged
            let entries := tagged.map (fun nt => (nt.1, tagObj nt.2))
            let newElems := assembleLoop entries pos 0 (total + 1) nonTargeted []
            let root2 := modifyElemsAt root1 p (fun _ => newElems)
            .ok (root2, updateRequest root2)
  | _ => .error (.valueError "invalid group handle")

/-- The index search loop of `Group.move_up`/`move_down`
(`for i, name in enumerate(...): if name == element: ...; break`): the
index of the first occurrence (callers have validated membership). -/
def firstIndexOf (element : String) : List String → Nat
  | [] => 0
  | k :: rest => if k = element then 0 else firstIndexOf element rest + 1

/-- `Group.move_up(element)` from datasets.py: one position toward the
front; on the first element it returns without calling `move` (and hence
without any remote update). -/
def moveUpOp (root : GElem) (p : List String) (element : String) :
    Except PyErr (GElem × List Request) :=
  match getAt root p with
  | some (.grp _ ges) =>
      if !((ges.map Prod.fst).contains element) then
        .error (.valueError "Invalid reference. It is not part of the current Group.")
      else
        let i := firstIndexOf element (ges.map Prod.fst)
        let position : Int := (i : Int) - 1
        if position = -1 then .ok (root, [])
        else moveOp root p [element] position
  | _ => .error (.valueError "invalid group handle")

/-- `Group.move_down(element)` from datasets.py: one position toward the
back; on the last element it returns without calling `move`. -/
def moveDownOp (root : GElem) (p : List String) (element : String) :
    Except PyErr (GElem × List Request) :=
  match getAt root p with
  | some (.grp _ ges) =>
      if !((ges.map Prod.fst).contains element) then
        .error (.valueError "Invalid reference. It is not part of the current Group.")
      else
        let i := firstIndexOf element (ges.map Prod.fst)
        let position : Int := (i : Int) + 1
        if position = (ges.length : Int) then .ok (root, [])
        else moveOp root p [element] position
  | _ => .error (.valueError "invalid group handle")

/-- `Group.set(elements)` from datasets.py: same names in a new order;
an unchanged order returns without updating. -/
def setOp (root : GElem) (p : List String) (elements : List String) :
    Except PyErr (GElem × List Request) :=
  match getAt root p with
  | some (.grp _ ges) =>
      let existing := ges.map Prod.fst
      if elements.length ≠ existing.length ||
          !(elements.all (fun e => existing.contains e)) then
        .error (.valueError "Invalid list of element references.")
      else if elements = existing then .ok (root, [])
      else
        let newElems := elements.foldl
          (fun acc e => upsert e ((gLookup e ges).getD (.varId "")) acc) []
        let root2 := modifyElemsAt root p (fun _ => newElems)
        .ok (root2, updateRequest root2)
  | _ => .error (.valueError "invalid group handle")

/-- The element-resolution step of `Group.create`: a variable found via
`self.order.find`, else a group via `self.order.find_group`, else
ValueError. -/
def resolveCreateElement (root : GElem) (name : String) : Option MoveTag :=
  match findIn name (elemsOf root) with
  | some q =>
      (getAt root q).bind fun cg =>
        (gLookup name (elemsOf cg)).map (.migrateVar q)
  | none =>
      match findGroupIn name (nameOf root) (elemsOf root) with
      | some q => (getAt root q).map (.migrateGroup q)
      | none => none

/-- Resolves every name for `Group.create`. -/
def resolveAllCreate (root : GElem) : List String → Option (List (String × MoveTag))
  | [] => some []
  | n :: rest =>
      match resolveCreateElement root n with
      | some t => (resolveAllCreate root rest).map (fun l => (n, t) :: l)
      | none => none

/-- `Group.create(name, elements)` from datasets.py, acting on the group
at path `p`. -/
def createOp (root : GElem) (p : List String) (name : String) (elements : List String) :
    Except PyErr (GElem × List Request) :=
  match getAt root p with
  | some (.grp _ ges) =>
      if (ges.map Prod.fst).contains name then
        .error (.valueError "A variable/sub-group with this name already exists.")
      else
        let names := dedupKeys elements
        match resolveAllCreate root names with
        | none => .error (.valueError "Invalid alias/group name")
        | some tagged =>
            let root1 := performMigrations root tagged
            let newGroup := GElem.grp name
              (tagged.foldl (fun acc nt => upsert nt.1 (tagObj nt.2) acc) [])
            let root2 := modifyElemsAt root1 p (upsert name newGroup)
            .ok (root2, updateRequest root2)
  | _ => .error (.valueError "invalid group handle")

/-- `Group.rename(name)` from datasets.py, acting on the group at path
`p` (the root group has `p = []` and no parent). -/
def renameOp (root : GElem) (p : List String) (newName : String) :
    Except PyErr (GElem × List Request) :=
  match getAt root p with
  | some (.grp gname _) =>
      if gname = "__root__" ∧ p = [] then
        .error (.notImplementedError "Renaming the root Group is not allowed.")
      else if newName = gname then .ok (root, [])
      else
        match p with
        | [] => .error (.attributeError "NoneType has no attribute elements")
        | _ =>
            match getAt root p.dropLast with
            | some (.grp _ pes) =>
                if (pes.map Prod.fst).contains newName then
                  .error (.valueError "Parent Group already contains this name.")
                else
                  let root2 := modifyElemsAt root p.dropLast (fun es =>
                    es.map (fun e =>
                      if e.1 = gname then (newName, setGName e.2 newName) else e))
                  .ok (root2, updateRequest root2)
            | _ => .error (.valueError "invalid group handle")
  | _ => .error (.valueError "invalid group handle")

/-- `Group.remove(elements)` from datasets.py: the named elements are
moved, in order, from this group to the root group, then the order is
updated. -/
def removeOp (root : GElem) (p : List String) (elements : List String) :
    Except PyErr (GElem × List Request) :=
  match getAt root p with
  | some (.grp gname ges) =>
      if gname = "__root__" ∧ p = [] then
        .error (.notImplementedError "Removing elements from the root Group is not allowed.")
      else
        let names := dedupKeys elements
        if !(names.all (fun n => (ges.map Prod.fst).contains n)) then
          .error (.valueError "A variable/sub-group with this name does not exist within the Group.")
        else
          let pairs := names.map (fun n => (n, (gLookup n ges).getD (.varId "")))
          let root2 := pairs.foldl (fun r nv =>
            modifyElemsAt (modifyElemsAt r [] (upsert nv.1 nv.2)) p (eraseKey nv.1)) root
          .ok (root2, updateRequest root2)
  | _ => .error (.valueError "invalid group handle")

/-- `Group.delete()` from datasets.py: every element is moved to the
root group, then the group is deleted from its parent. -/
def deleteOp (root : GElem) (p : List String) :
    Except PyErr (GElem × List Request) :=
  match getAt root p with
  | some (.grp gname ges) =>
      if gname = "__root__" ∧ p = [] then
        .error (.notImplementedError "Deleting the root Group is not allowed.")
      else
        let root1 := ges.foldl (fun r nv =>
          modifyElemsAt (modifyElemsAt r [] (upsert nv.1 nv.2)) p (eraseKey nv.1)) root
        match p with
        | [] => .error (.attributeError "NoneType has no attribute elements")
        | _ =>
            let root2 := modifyElemsAt root1 p.dropLast (eraseKey gname)
            .ok (root2, updateRequest root2)
  | _ => .error (.valueError "invalid group handle")

/-- One call to a mutating operation of the hierarchical order. -/
inductive OpCall where
  | move (p : List String) (elements : List String) (position : Int)
  | set (p : List String) (elements : List String)
  | create (p : List String) (name : String) (elements : List String)
  | rename (p : List String) (newName : String)
  | remove (p : List String) (elements : List String)
  | delete (p : List String)

/-- Dispatch of the six mutating operations. -/
def execOp (root : GElem) : OpCall → Except PyErr (GElem × List Request)
  | .move p els pos => moveOp root p els pos
  | .set p els => setOp root p els
  | .create p name els => createOp root p name els
  | .rename p n => renameOp root p n
  | .remove p els => removeOp root p els
  | .delete p => deleteOp root p

/-- The key paths a tagged element's migration deletes at stay clear of
the acting group's path `p`: the deletion neither happens at `p` itself
nor removes an entry the path `p` passes through.  This always holds for
trees whose group entries are keyed by their group names (as built by
the library), and trivially for elements already in the group. -/
def delSafe (p : List String) : String × MoveTag → Prop
  | (_, .moveHere _) => True
  | (n, .migrateVar q _) => q ≠ p ∧ ¬ (q ++ [n]) <+: p
  | (n, .migrateGroup q _) => q.dropLast ≠ p ∧ ¬ (q.dropLast ++ [n]) <+: p

/-! ## Theorems -/

/-- Every successful `move` call ends with the single full-graph update
PUT. -/
theorem moveOp_ok_shape (root : GElem) (p els : List String) (pos : Int)
    (r2 : GElem) (reqs : List Request)
    (h : moveOp root p els pos = .ok (r2, reqs)) :
    reqs = updateRequest r2 ∨ (r2 = root ∧ reqs = []) := by
  simp only [moveOp] at h
  repeat' split at h
  all_goals first
    | exact (Except.noConfusion h)
    | (simp_all; try simp [h.2.symm, h.1])

/-- Every successful `set` call either changes nothing with no request
or ends with the single full-graph update PUT. -/
theorem setOp_ok_shape (root : GElem) (p els : List String)
    (r2 : GElem) (reqs : List Request)
    (h : setOp root p els = .ok (r2, reqs)) :
    reqs = updateRequest r2 ∨ (r2 = root ∧ reqs = []) := by
  simp only [setOp] at h
  repeat' split at h
  all_goals first
    | exact (Except.noConfusion h)
    | (simp_all; try simp [h.2.symm, h.1])

/-- Every successful `create` call ends with the single full-graph
update PUT. -/
theorem createOp_ok_shape (root : GElem) (p : List String) (name : String)
    (els : List String) (r2 : GElem) (reqs : List Request)
    (h : createOp root p name els = .ok (r2, reqs)) :
    reqs = updateRequest r2 ∨ (r2 = root ∧ reqs = []) := by
  simp only [createOp] at h
  repeat' split at h
  all_goals first
    | exact (Except.noConfusion h)
    | (simp_all; try simp [h.2.symm, h.1])

/-- Every successful `rename` call either changes nothing with no
request or ends with the single full-graph update PUT. -/
theorem renameOp_ok_shape (root : GElem) (p : List String) (newName : String)
    (r2 : GElem) (reqs : List Request)
    (h : renameOp root p newName = .ok (r2, reqs)) :
    reqs = updateRequest r2 ∨ (r2 = root ∧ reqs = []) := by
  simp only [renameOp] at h
  repeat' split at h
  all_goals first
    | exact (Except.noConfusion h)
    | (simp_all; try simp [h.2.symm, h.1])

/-- Every successful `remove` call ends with the single full-graph
update PUT. -/
theorem removeOp_ok_shape (root : GElem) (p els : List String)
    (r2 : GElem) (reqs : List Request)
    (h : removeOp root p els = .ok (r2, reqs)) :
    reqs = updateRequest r2 ∨ (r2 = root ∧ reqs = []) := by
  simp only [removeOp] at h
  repeat' split at h
  all_goals first
    | exact (Except.noConfusion h)
    | (simp_all; try simp [h.2.symm, h.1])

/-- Every successful `delete` call ends with the single full-graph
update PUT. -/
theorem deleteOp_ok_shape (root : GElem) (p : List String)
    (r2 : GElem) (reqs : List Request)
    (h : deleteOp root p = .ok (r2, reqs)) :
    reqs = updateRequest r2 ∨ (r2 = root ∧ reqs = []) := by
  simp only [deleteOp] at h
  repeat' split at h
  all_goals first
    | exact (Except.noConfusion h)
    | (simp_all; try simp [h.2.symm, h.1])

/-- C1: every mutating operation on a Group (move, set, create, rename,
remove, delete), when it succeeds and changes anything, ends by calling
`Order.update`, which PUTs `{'element': 'shoji:order', 'graph': G}` to
the hier resource where `G` is rebuilt from the entire local tree
starting at the root group (the only other possibility is the explicit
nothing-to-do early return of `set`/`rename`, which issues no request
and changes nothing). -/
theorem mutating_ops_put_full_graph (root : GElem) (op : OpCall)
    (root2 : GElem) (reqs : List Request)
    (h : execOp root op = .ok (root2, reqs)) :
    reqs = [.putOrder (.obj [("element", .str "shoji:order"),
                             ("graph", .arr (buildElems (elemsOf root2)))])] ∨
    (root2 = root ∧ reqs = []) := by
  have shape : reqs = updateRequest root2 ∨ (root2 = root ∧ reqs = []) := by
    cases op with
    | move p els pos => exact moveOp_ok_shape root p els pos root2 reqs h
    | set p els => exact setOp_ok_shape root p els root2 reqs h
    | create p name els => exact createOp_ok_shape root p name els root2 reqs h
    | rename p n => exact renameOp_ok_shape root p n root2 reqs h
    | remove p els => exact removeOp_ok_shape root p els root2 reqs h
    | delete p => exact deleteOp_ok_shape root p root2 reqs h
  rcases shape with h1 | h2
  · left; rw [h1]; rfl
  · right; exact h2

/-- C1 witness: the theorem applied to a concrete `set` call on a
two-variable root group. -/
theorem mutating_ops_put_full_graph_witness :
    [Request.putOrder (JVal.obj [("element", .str "shoji:order"),
                                 ("graph", .arr [.str "../2/", .str "../1/"])])] =
      [Request.putOrder (JVal.obj [("element", .str "shoji:order"),
        ("graph", .arr (buildElems (elemsOf
          (GElem.grp "__root__" [("b", .varId "2"), ("a", .varId "1")]))))])] ∨
    (GElem.grp "__root__" [("b", .varId "2"), ("a", .varId "1")] =
        GElem.grp "__root__" [("a", .varId "1"), ("b", .varId "2")] ∧
     [Request.putOrder (JVal.obj [("element", .str "shoji:order"),
                                  ("graph", .arr [.str "../2/", .str "../1/"])])] = []) :=
  mutating_ops_put_full_graph
    (GElem.grp "__root__" [("a", .varId "1"), ("b", .varId "2")])
    (.set [] ["b", "a"])
    (GElem.grp "__root__" [("b", .varId "2"), ("a", .varId "1")])
    [Request.putOrder (JVal.obj [("element", .str "shoji:order"),
                                 ("graph", .arr [.str "../2/", .str "../1/"])])]
    (by simp [execOp, setOp, getAt, gLookup, upsert, modifyElemsAt, updateRequest,
              orderPayload, buildGraphStructure, buildElems, elemsOf])

/-- C3: for every rules value and strings name and alias, `case_expr`
returns the expression tree with `function = 'case'`, `references =
{'name': name, 'alias': alias}`, and exactly two args: the fixed
`[1, 2]` column typed as a categorical with categories 'Selected'
(id 1, selected) and 'Not selected' (id 2, not selected), followed by
the rules value unchanged. -/
theorem case_expr_correct (rules : JVal) (name alias_ : String) :
    case_expr rules name alias_ =
      .obj [ ("references", .obj [("name", .str name), ("alias", .str alias_)])
           , ("function", .str "case")
           , ("args", .arr
               [ .obj [ ("column", .arr [.num 1, .num 2])
                      , ("type", .obj [("value", .obj
                          [ ("class", .str "categorical")
                          , ("categories", .arr
                              [ .obj [ ("id", .num 1), ("name", .str "Selected")
                                     , ("missing", .bool false)
                                     , ("numeric_value", .null)
                                     , ("selected", .bool true) ]
                              , .obj [ ("id", .num 2), ("name", .str "Not selected")
                                     , ("missing", .bool false)
                                     , ("numeric_value", .null)
                                     , ("selected", .bool false) ] ]) ])]) ]
               , rules ]) ] := rfl

/-- C7: `Dataset.exclude` issues a single PATCH to the exclusion
fragment; with `expr = None` the body is exactly `{"expression": {}}`,
with a string the body carries the parsed and processed expression
under the 'expression' key. -/
theorem exclude_correct (parse_expr : String → JVal) (process_expr : JVal → JVal)
    (url : String) :
    (exclude parse_expr process_expr url .noExpr =
      { url := url, body := .obj [("expression", .obj [])] }) ∧
    ∀ s, exclude parse_expr process_expr url (.exprStr s) =
      { url := url, body := .obj [("expression", process_expr (parse_expr s))] } :=
  ⟨rfl, fun _ => rfl⟩

/-- C8: `validate_category_map` raises `PendingDeprecationWarning` for
every input map, unconditionally, and never returns the rebuilt list of
category dictionaries. -/
theorem validate_category_map_always_raises (map : List (Int × JVal)) :
    validate_category_map map =
      .error (.pendingDeprecationWarning "Does not use the new input format") ∧
    ∀ l, validate_category_map map ≠ .ok l :=
  ⟨rfl, fun _ h => nomatch h⟩

/-- C9 counterexample: for a variable whose alias is the entity
attribute name `'name'`, attribute access does NOT raise the
"accessed like a dictionary" `AttributeError` — it returns the dataset
body attribute instead, refuting "attribute access always raises
AttributeError" for items naming an existing variable alias. -/
theorem dataset_getattr_alias_shadowed :
    (lookupAlias "name"
      (DatasetModel.mk "ds" [("name", .str "ds")] [("name", "varUrl")]).variablesByAlias)
      = some "varUrl" ∧
    dataset_getattr (DatasetModel.mk "ds" [("name", .str "ds")] [("name", "varUrl")]) "name"
      = .value (.str "ds") ∧
    ∀ msg, dataset_getattr (DatasetModel.mk "ds" [("name", .str "ds")] [("name", "varUrl")]) "name"
      ≠ .attributeError msg := by
  exact ⟨rfl, rfl, fun msg h => nomatch h⟩

/-- C9 (amended): for an item that is not an entity attribute name,
attribute access on an existing alias raises the dictionary-access
`AttributeError` while indexing returns a Variable wrapper; on a
non-alias, attribute access raises `AttributeError` and indexing raises
`ValueError`. -/
theorem dataset_access_protocol (ds : DatasetModel) (item : String)
    (hitem : item ∉ ENTITY_ATTRIBUTES) :
    (∀ url, lookupAlias item ds.variablesByAlias = some url →
        dataset_getattr ds item =
          .attributeError "Dataset variables should be accessed like a dictionary" ∧
        dataset_getitem ds item = .variableWrapper url) ∧
    (lookupAlias item ds.variablesByAlias = none →
        dataset_getattr ds item =
          .attributeError ("Dataset " ++ ds.name ++ " has no attribute " ++ item) ∧
        dataset_getitem ds item =
          .valueError ("Dataset " ++ ds.name ++ " has no variable " ++ item)) := by
  constructor
  · intro url h
    simp [dataset_getattr, dataset_getitem, hitem, h]
  · intro h
    simp [dataset_getattr, dataset_getitem, hitem, h]

/-- C9 witness: the amended theorem applied at a concrete dataset. -/
theorem dataset_access_protocol_witness :
    dataset_getattr (DatasetModel.mk "ds" [] [("v1", "u1")]) "v1" =
      .attributeError "Dataset variables should be accessed like a dictionary" ∧
    dataset_getitem (DatasetModel.mk "ds" [] [("v1", "u1")]) "v1" = .variableWrapper "u1" :=
  (dataset_access_protocol (DatasetModel.mk "ds" [] [("v1", "u1")]) "v1" (by decide)).1
    "u1" rfl

/-- After any access through the `hier` property the cache holds the
returned value. -/
theorem hierProp_state_cache (rem : Remote) (st : OrderState) :
    (hierProp rem st).state.hierCache = some (hierProp rem st).value := by
  unfold hierProp; cases h : st.hierCache <;> simp [h]

/-- A `hier` access on a populated cache returns it with no request. -/
theorem hierProp_cached (rem : Remote) (st : OrderState) (h : HierPayload)
    (hc : st.hierCache = some h) : hierProp rem st = ⟨h, st, []⟩ := by
  unfold hierProp; rw [hc]

/-- After any access through the `vars` property the cache holds the
returned value. -/
theorem varsProp_state_cache (rem : Remote) (st : OrderState) :
    (varsProp rem st).state.varsCache = some (varsProp rem st).value := by
  unfold varsProp; cases h : st.varsCache <;> simp [h]

/-- A `vars` access on a populated cache returns it with no request. -/
theorem varsProp_cached (rem : Remote) (st : OrderState) (v : List (String × String))
    (hc : st.varsCache = some v) : varsProp rem st = ⟨v, st, []⟩ := by
  unfold varsProp; rw [hc]

/-- After any access through the `graph` property the cache holds the
returned value. -/
theorem graphProp_state_cache (rem : Remote) (st : OrderState) :
    (graphProp rem st).state.graphCache = some (graphProp rem st).value := by
  unfold graphProp
  split
  next g heq => exact heq
  next heq =>
    unfold loadGraph
    dsimp only
    split <;> rfl

/-- A `graph` access on a populated cache returns it with no request. -/
theorem graphProp_cached (rem : Remote) (st : OrderState) (g : GElem)
    (hc : st.graphCache = some g) : graphProp rem st = ⟨g, st, []⟩ := by
  unfold graphProp; rw [hc]

/-- C4: the `Order.hier`, `Order.vars` and `Order.graph` properties
fetch from the remote only when their cache field is `None`; a cached
access returns the cached object unchanged with no request, and any
second access after a first one issues no request and returns the same
value. -/
theorem order_lazy_caching (rem : Remote) (st : OrderState) :
    (st.hierCache = none →
      hierProp rem st =
        ⟨rem.hier, { st with hierCache := some rem.hier }, [.getHier]⟩) ∧
    (∀ h, st.hierCache = some h → hierProp rem st = ⟨h, st, []⟩) ∧
    (hierProp rem (hierProp rem st).state =
      ⟨(hierProp rem st).value, (hierProp rem st).state, []⟩) ∧
    (st.varsCache = none →
      varsProp rem st =
        ⟨rem.varsCatalog, { st with varsCache := some rem.varsCatalog }, [.getVars]⟩) ∧
    (∀ v, st.varsCache = some v → varsProp rem st = ⟨v, st, []⟩) ∧
    (varsProp rem (varsProp rem st).state =
      ⟨(varsProp rem st).value, (varsProp rem st).state, []⟩) ∧
    (st.graphCache = none →
      graphProp rem st = loadGraph rem st ∧
      (graphProp rem st).state.graphCache = some (graphProp rem st).value) ∧
    (∀ g, st.graphCache = some g → graphProp rem st = ⟨g, st, []⟩) ∧
    (graphProp rem (graphProp rem st).state =
      ⟨(graphProp rem st).value, (graphProp rem st).state, []⟩) := by
  refine ⟨?_, ?_, ?_, ?_, ?_, ?_, ?_, ?_, ?_⟩
  · intro h; simp [hierProp, h]
  · intro h hh; simp [hierProp, hh]
  · exact hierProp_cached rem _ _ (hierProp_state_cache rem st)
  · intro h; simp [varsProp, h]
  · intro v hv; simp [varsProp, hv]
  · exact varsProp_cached rem _ _ (varsProp_state_cache rem st)
  · intro h
    exact ⟨by simp [graphProp, h], graphProp_state_cache rem st⟩
  · intro g hg; simp [graphProp, hg]
  · exact graphProp_cached rem _ _ (graphProp_state_cache rem st)

/-- C4 witness: the theorem applied at a concrete remote and the
freshly initialized state. -/
theorem order_lazy_caching_witness :
    hierProp (Remote.mk (HierPayload.mk []) []) OrderState.init =
      ⟨HierPayload.mk [],
       { OrderState.init with hierCache := some (HierPayload.mk []) }, [.getHier]⟩ :=
  (order_lazy_caching (Remote.mk (HierPayload.mk []) []) OrderState.init).1 rfl

/-- C5: when the PUT of `Order.update` fails with a client or server
error, all three caches are discarded, the graph is reloaded from the
remote, and `OrderUpdateError` is raised; the local tree then reflects
the remote state. -/
theorem order_update_failure (rem : Remote) (st : OrderState) :
    (orderUpdate rem true st).1 = .orderUpdateError ∧
    (orderUpdate rem true st).2.1 = (loadGraph rem OrderState.init).state ∧
    (orderUpdate rem true st).2.1.graphCache =
      some (GElem.grp "__root__"
        (loadElements (if touchesVars rem.hier.graph then rem.varsCatalog else [])
          rem.hier.graph [])) ∧
    (orderUpdate rem true st).2.1.hierCache = some rem.hier := by
  by_cases ht : touchesVars rem.hier.graph <;>
    simp [orderUpdate, loadGraph, hierProp, varsProp, OrderState.init, ht]


/-- `distinctKeys` agrees with `List.Nodup`. -/
theorem distinctKeys_iff (l : List String) : distinctKeys l = true ↔ l.Nodup := by
  induction l with
  | nil => simp [distinctKeys]
  | cons x rest ih => simp [distinctKeys, ih, List.nodup_cons, List.elem_iff]

/-- Dict assignment of a fresh key appends the entry. -/
theorem upsert_append (k : String) (v : GElem) (l : List (String × GElem))
    (hk : k ∉ l.map Prod.fst) : upsert k v l = l ++ [(k, v)] := by
  induction l with
  | nil => rfl
  | cons e rest ih =>
      simp only [List.map_cons, List.mem_cons] at hk
      push_neg at hk
      simp [upsert, Ne.symm hk.1, ih hk.2]

/-- `_build_graph_structure`'s element walk distributes over append. -/
theorem buildElems_append (xs ys : List (String × GElem)) :
    buildElems (xs ++ ys) = buildElems xs ++ buildElems ys := by
  induction xs using buildElems.induct <;> simp [buildElems, *]

/-- Round trip of the element-loading loop of `Group.__init__` against
`_build_graph_structure`, generalized over the accumulator. -/
theorem loadElements_roundtrip (vars : List (String × String)) (l : List JVal)
    (acc : List (String × GElem)) :
    goodElems vars l = true →
    levelsDistinct vars l = true →
    ((acc.map Prod.fst) ++ graphKeys vars l).Nodup →
    buildElems (loadElements vars l acc) = buildElems acc ++ renderList l := by
  induction l, acc using loadElements.induct vars with
  | case1 acc =>
      intro _ _ _
      simp [loadElements, renderList]
  | case2 s rest acc al hal ih =>
      intro h1 h2 h3
      have h1' : goodElems vars rest = true := by
        simp [goodElems] at h1; exact h1.2
      have h2' : levelsDistinct vars rest = true := by
        simpa [levelsDistinct] using h2
      rw [show graphKeys vars (JVal.str s :: rest) = al :: graphKeys vars rest by
        simp [graphKeys, hal]] at h3
      have hk : al ∉ acc.map Prod.fst := by
        have := (List.nodup_append.mp h3).2.2
        intro hmem
        exact this hmem (List.mem_cons_self _ _)
      have h3' : (((acc ++ [(al, GElem.varId (urlId s))]).map Prod.fst)
          ++ graphKeys vars rest).Nodup := by
        simpa using h3
      have hup : upsert al (GElem.varId (urlId s)) acc
          = acc ++ [(al, GElem.varId (urlId s))] := upsert_append _ _ _ hk
      rw [show loadElements vars (JVal.str s :: rest) acc
            = loadElements vars rest (upsert al (GElem.varId (urlId s)) acc) by
          simp [loadElements, hal]]
      rw [ih h1' h2' (by rw [hup]; exact h3'), hup, buildElems_append]
      simp [buildElems, renderList]
  | case3 s rest acc hal ih =>
      intro h1 _ _
      simp [goodElems, hal] at h1
  | case4 n sub tail rest acc ih1 ih2 =>
      intro h1 h2 h3
      cases tail with
      | cons f fs => simp [goodElems] at h1
      | nil =>
      have h1s : goodElems vars sub = true := by
        simp [goodElems] at h1; exact h1.1
      have h1' : goodElems vars rest = true := by
        simp [goodElems] at h1; exact h1.2
      have h2s : levelsDistinct vars sub = true ∧
          distinctKeys (graphKeys vars sub) = true ∧
          levelsDistinct vars rest = true := by
        simp [levelsDistinct] at h2
        exact ⟨h2.1.2, h2.1.1, h2.2⟩
      rw [show graphKeys vars (JVal.obj [(n, JVal.arr sub)] :: rest)
            = n :: graphKeys vars rest by simp [graphKeys]] at h3
      have hk : n ∉ acc.map Prod.fst := by
        have := (List.nodup_append.mp h3).2.2
        intro hmem
        exact this hmem (List.mem_cons_self _ _)
      have hsubnodup : (([] : List (String × GElem)).map Prod.fst
          ++ graphKeys vars sub).Nodup := by
        simpa [distinctKeys_iff] using h2s.2.1
      have hsub : buildElems (loadElements vars sub []) = renderList sub := by
        simpa [buildElems] using ih1 h1s h2s.1 hsubnodup
      have h3' : (((acc ++ [(n, GElem.grp n (loadElements vars sub []))]).map Prod.fst)
          ++ graphKeys vars rest).Nodup := by
        simpa using h3
      have hup : upsert n (GElem.grp n (loadElements vars sub [])) acc
          = acc ++ [(n, GElem.grp n (loadElements vars sub []))] := upsert_append _ _ _ hk
      rw [show loadElements vars (JVal.obj [(n, JVal.arr sub)] :: rest) acc
            = loadElements vars rest
                (upsert n (GElem.grp n (loadElements vars sub [])) acc) by
          simp [loadElements]]
      rw [ih2 h1' h2s.2.2 (by rw [hup]; exact h3'), hup, buildElems_append]
      simp [buildElems, renderList, hsub]
  | case5 head rest acc hs ho ih =>
      intro h1 _ _
      cases head with
      | str s => exact absurd rfl (fun h => hs s h)
      | obj fields =>
          cases fields with
          | nil => simp [goodElems] at h1
          | cons f fs =>
              obtain ⟨fn, fv⟩ := f
              cases fv with
              | arr sub => exact absurd rfl (fun h => ho fn sub fs h)
              | null => simp [goodElems] at h1
              | bool b => simp [goodElems] at h1
              | num m => simp [goodElems] at h1
              | str s2 => simp [goodElems] at h1
              | obj o => simp [goodElems] at h1
      | null => simp [goodElems] at h1
      | bool b => simp [goodElems] at h1
      | num m => simp [goodElems] at h1
      | arr a => simp [goodElems] at h1


/-- C2 (amended): for every hierarchy graph of variable-URL strings
with catalog-known ids and nested one-key dicts, provided the derived
ordered-dict keys (variable aliases and group names) are pairwise
distinct at every level, building a `Group` from the graph and
rebuilding with `Order._build_graph_structure` yields the same nested
structure with variable ids rendered as `'../<id>/'`. -/
theorem graph_roundtrip (vars : List (String × String)) (g : List JVal)
    (h1 : goodElems vars g = true) (h2 : levelsDistinct vars g = true)
    (h3 : distinctKeys (graphKeys vars g) = true) :
    buildGraphStructure (GElem.grp "__root__" (loadElements vars g [])) = renderList g := by
  have := loadElements_roundtrip vars g [] h1 h2
    (by simpa [distinctKeys_iff] using h3)
  simpa [buildGraphStructure, elemsOf, buildElems] using this

/-- C2 witness: the round trip applied to a concrete two-level graph. -/
theorem graph_roundtrip_witness :
    buildGraphStructure (GElem.grp "__root__"
        (loadElements [("1", "x"), ("2", "y")] [.str "a/1/", .obj [("G", .arr [.str "b/2/"])]] []))
      = renderList [.str "a/1/", .obj [("G", .arr [.str "b/2/"])]] :=
  graph_roundtrip [("1", "x"), ("2", "y")]
    [.str "a/1/", .obj [("G", .arr [.str "b/2/"])]]
    (by simp only [goodElems]; decide)
    (by simp only [levelsDistinct]; decide)
    (by simp only [distinctKeys, graphKeys]; decide)

/-- C2 counterexample: the round trip fails without the distinctness
amendment — two URLs of the same catalog id collapse into one
ordered-dict entry keyed by their shared alias, so the claim as stated
(which allows any graph whose ids are in the catalog) is false. -/
theorem graph_roundtrip_counterexample :
    goodElems [("1", "x")] [.str "a/1/", .str "b/1/"] = true ∧
    buildGraphStructure (GElem.grp "__root__"
        (loadElements [("1", "x")] [.str "a/1/", .str "b/1/"] []))
      ≠ renderList [.str "a/1/", .str "b/1/"] := by
  constructor
  · simp only [goodElems]; decide
  · have e1 : lookupAlias (urlId "a/1/") [("1", "x")] = some "x" := by decide
    have e2 : lookupAlias (urlId "b/1/") [("1", "x")] = some "x" := by decide
    have eb : loadElements [("1", "x")] [.str "a/1/", .str "b/1/"] []
        = [("x", GElem.varId (urlId "b/1/"))] := by
      rw [show loadElements [("1", "x")] [JVal.str "a/1/", JVal.str "b/1/"] []
            = loadElements [("1", "x")] [JVal.str "b/1/"]
                (upsert "x" (GElem.varId (urlId "a/1/")) []) by
          simp [loadElements, e1]]
      rw [show loadElements [("1", "x")] [JVal.str "b/1/"]
                (upsert "x" (GElem.varId (urlId "a/1/")) [])
            = loadElements [("1", "x")] []
                (upsert "x" (GElem.varId (urlId "b/1/"))
                  (upsert "x" (GElem.varId (urlId "a/1/")) [])) by
          simp [loadElements, e2]]
      rw [show upsert "x" (GElem.varId (urlId "b/1/"))
                  (upsert "x" (GElem.varId (urlId "a/1/")) [])
            = [("x", GElem.varId (urlId "b/1/"))] by rfl]
      simp [loadElements]
    rw [eb]
    simp [buildGraphStructure, elemsOf, buildElems, renderList]


theorem foldl_upsert_append (entries acc : List (String × GElem))
    (h : ((acc.map Prod.fst) ++ entries.map Prod.fst).Nodup) :
    entries.foldl (fun a e => upsert e.1 e.2 a) acc = acc ++ entries := by
  induction entries generalizing acc with
  | nil => simp
  | cons e rest ih =>
      have hk : e.1 ∉ acc.map Prod.fst := by
        have := (List.nodup_append.mp h).2.2
        intro hmem
        exact this hmem (by simp)
      have h' : (((acc ++ [e]).map Prod.fst) ++ rest.map Prod.fst).Nodup := by
        simpa using h
      simp only [List.foldl_cons, upsert_append _ _ _ hk]
      rw [ih (acc ++ [(e.1, e.2)]) (by simpa using h)]
      simp

theorem assembleLoop_drain (entries : List (String × GElem)) (pos : Nat) :
    ∀ (steps i : Nat) (nt acc : List (String × GElem)),
      pos < i →
      nt.length ≤ steps →
      ((acc.map Prod.fst) ++ nt.map Prod.fst).Nodup →
      assembleLoop entries pos i steps nt acc = acc ++ nt := by
  intro steps
  induction steps with
  | zero =>
      intro i nt acc hpos hlen hnd
      rw [List.length_eq_zero.mp (Nat.le_zero.mp hlen)]
      simp [assembleLoop]
  | succ steps ih =>
      intro i nt acc hpos hlen hnd
      cases nt with
      | nil =>
          rw [assembleLoop, if_neg (by omega)]
          rw [ih (i + 1) [] acc (by omega) (by simp) (by simpa using hnd)]
      | cons e rest =>
          rw [assembleLoop, if_neg (by omega)]
          have hk : e.1 ∉ acc.map Prod.fst := by
            have := (List.nodup_append.mp hnd).2.2
            intro hmem
            exact this hmem (by simp)
          rw [upsert_append _ _ _ hk]
          rw [ih (i + 1) rest (acc ++ [(e.1, e.2)]) (by omega)
              (by simpa using Nat.le_of_succ_le_succ (by simpa using hlen))
              (by simpa using hnd)]
          simp


theorem assembleLoop_succ (entries : List (String × GElem)) (pos i steps : Nat)
    (nt acc : List (String × GElem)) :
    assembleLoop entries pos i (steps + 1) nt acc =
      if i = pos then
        assembleLoop entries pos (i + 1) steps nt
          (entries.foldl (fun a e => upsert e.1 e.2 a) acc)
      else
        match nt with
        | [] => assembleLoop entries pos (i + 1) steps [] acc
        | e :: rest => assembleLoop entries pos (i + 1) steps rest (upsert e.1 e.2 acc) := by
  cases nt <;> rfl

theorem assembleLoop_insert (entries : List (String × GElem)) (pos : Nat) :
    ∀ (steps i d : Nat) (nt acc : List (String × GElem)),
      pos = i + d →
      d < steps →
      nt.length < steps →
      ((acc.map Prod.fst) ++ (nt.map Prod.fst) ++ (entries.map Prod.fst)).Nodup →
      assembleLoop entries pos i steps nt acc
        = acc ++ nt.take d ++ entries ++ nt.drop d := by
  intro steps
  induction steps with
  | zero => intro i d nt acc _ hd _ _; omega
  | succ steps ih =>
      intro i d nt acc hpos hd hlen hnd
      rw [assembleLoop_succ]
      cases d with
      | zero =>
          rw [if_pos (by omega)]
          have hnd' : ((acc.map Prod.fst) ++ (nt.map Prod.fst ++ entries.map Prod.fst)).Nodup := by
            simpa [List.append_assoc] using hnd
          have hnd2 : ((acc.map Prod.fst) ++ entries.map Prod.fst).Nodup := by
            refine hnd'.sublist ?_
            exact List.Sublist.append_left (List.sublist_append_right _ _) _
          rw [foldl_upsert_append entries acc hnd2]
          have hnd3 : (((acc ++ entries).map Prod.fst) ++ nt.map Prod.fst).Nodup := by
            have hperm : ((acc ++ entries).map Prod.fst ++ nt.map Prod.fst).Perm
                (acc.map Prod.fst ++ (nt.map Prod.fst ++ entries.map Prod.fst)) := by
              simp only [List.map_append, List.append_assoc]
              exact List.Perm.append_left _ List.perm_append_comm
            exact hperm.symm.nodup (by simpa using hnd)
          rw [assembleLoop_drain entries pos steps (i + 1) nt (acc ++ entries)
              (by omega) (by omega) hnd3]
          simp
      | succ d =>
          rw [if_neg (by omega)]
          cases nt with
          | nil =>
              rw [ih (i + 1) d [] acc (by omega) (by omega) (by simp; omega)
                  (by simpa using hnd)]
              simp
          | cons e rest =>
              have hnd' : ((acc.map Prod.fst) ++
                  ((e :: rest).map Prod.fst ++ entries.map Prod.fst)).Nodup := by
                simpa [List.append_assoc] using hnd
              have hk : e.1 ∉ acc.map Prod.fst := by
                have := (List.nodup_append.mp hnd').2.2
                intro hmem
                exact this hmem (by simp)
              change assembleLoop entries pos (i + 1) steps rest (upsert e.1 e.2 acc)
                  = _
              rw [upsert_append _ _ _ hk]
              rw [ih (i + 1) d rest (acc ++ [(e.1, e.2)]) (by omega) (by omega)
                  (by simp at hlen ⊢; omega) (by simpa using hnd)]
              simp


theorem resolveAll_fst (root : GElem) (ges : List (String × GElem)) :
    ∀ (names : List String) (tagged : List (String × MoveTag)),
      resolveAll root ges names = some tagged → tagged.map Prod.fst = names := by
  intro names
  induction names with
  | nil =>
      intro tagged h
      simp only [resolveAll, Option.some.injEq] at h
      simp [← h]
  | cons n rest ih =>
      intro tagged h
      simp only [resolveAll] at h
      cases hr : resolveElement root ges n with
      | none => rw [hr] at h; simp at h
      | some t =>
          rw [hr] at h
          cases hrest : resolveAll root ges rest with
          | none => rw [hrest] at h; simp at h
          | some l =>
              rw [hrest] at h
              simp at h
              rw [← h]
              simp [ih l hrest]

theorem dedupKeys_nodup (l : List String) : (dedupKeys l).Nodup := by
  induction l with
  | nil => simp [dedupKeys]
  | cons x rest ih =>
      simp only [dedupKeys, List.nodup_cons]
      refine ⟨fun hmem => ?_, ih.filter _⟩
      simp [List.mem_filter] at hmem

theorem resolveAll_none_iff (root : GElem) (ges : List (String × GElem))
    (names : List String) :
    resolveAll root ges names = none ↔
      ∃ n ∈ names, resolveElement root ges n = none := by
  induction names with
  | nil => simp [resolveAll]
  | cons n rest ih =>
      simp only [resolveAll]
      cases hr : resolveElement root ges n with
      | none => exact ⟨fun _ => ⟨n, by simp, hr⟩, fun _ => rfl⟩
      | some t =>
          cases hrest : resolveAll root ges rest with
          | none =>
              constructor
              · intro _
                obtain ⟨m, hm, hres⟩ := ih.mp hrest
                exact ⟨m, by simp [hm], hres⟩
              · intro _; rfl
          | some l =>
              simp only [Option.map_some]
              constructor
              · intro h; exact absurd h (by simp)
              · rintro ⟨m, hm, hres⟩
                rcases List.mem_cons.mp hm with rfl | hm2
                · rw [hres] at hr; exact absurd hr (by simp)
                · have : resolveAll root ges rest = none := ih.mpr ⟨m, hm2, hres⟩
                  rw [this] at hrest; exact absurd hrest (by simp)

theorem gLookup_isSome_of_mem (k : String) (l : List (String × GElem))
    (h : k ∈ l.map Prod.fst) : ∃ v, gLookup k l = some v := by
  induction l with
  | nil => simp at h
  | cons e rest ih =>
      by_cases he : e.1 = k
      · exact ⟨e.2, by simp [gLookup, he]⟩
      · simp only [List.map_cons, List.mem_cons] at h
        rcases h with h | h
        · exact absurd h.symm he
        · obtain ⟨v, hv⟩ := ih h
          exact ⟨v, by simp [gLookup, he, hv]⟩


theorem gLookup_map_modify (k kq : String) (g : GElem → GElem)
    (es : List (String × GElem)) :
    gLookup k (es.map (fun e => if e.1 = kq then (e.1, g e.2) else e)) =
      if k = kq then (gLookup k es).map g else gLookup k es := by
  induction es with
  | nil => simp only [List.map_nil, gLookup]; split <;> rfl
  | cons e rest ih =>
      obtain ⟨k1, v⟩ := e
      have hstep : gLookup k
            (((k1, v) :: rest).map (fun e => if e.1 = kq then (e.1, g e.2) else e))
          = gLookup k ((if k1 = kq then (k1, g v) else (k1, v)) ::
              rest.map (fun e => if e.1 = kq then (e.1, g e.2) else e)) := rfl
      rw [hstep]
      by_cases h1 : k1 = kq
      · rw [if_pos h1]
        subst h1
        by_cases h2 : k1 = k
        · subst h2; simp [gLookup]
        · have h2' : ¬ k = k1 := fun hh => h2 hh.symm
          simp [gLookup, h2, h2', ih]
      · rw [if_neg h1]
        by_cases h2 : k1 = k
        · subst h2; simp [gLookup, h1]
        · have h2' : ¬ k = k1 := fun hh => h2 hh.symm
          by_cases h3 : k = kq
          · subst h3; simp [gLookup, h2, h2', ih]
          · simp [gLookup, h2', h3, ih]

/-- `gLookup_map_modify` specialized to the map performed by
`modifyElemsAt` along a path. -/
theorem gLookup_map_modifyAt (k kq : String) (p : List String)
    (f : List (String × GElem) → List (String × GElem)) (es : List (String × GElem)) :
    gLookup k (es.map (fun e => if e.1 = kq then (e.1, modifyElemsAt e.2 p f) else e)) =
      if k = kq then (gLookup k es).map (fun x => modifyElemsAt x p f)
      else gLookup k es := by
  simpa using gLookup_map_modify k kq (fun x => modifyElemsAt x p f) es

theorem keys_map_modify (kq : String) (g : GElem → GElem)
    (es : List (String × GElem)) :
    (es.map (fun e => if e.1 = kq then (e.1, g e.2) else e)).map Prod.fst
      = es.map Prod.fst := by
  induction es with
  | nil => rfl
  | cons e rest ih =>
      obtain ⟨k1, v⟩ := e
      simp only [List.map_cons]
      by_cases h1 : k1 = kq <;> simp_all

/-- `keys_map_modify` specialized to the map performed by
`modifyElemsAt` along a path. -/
theorem keys_map_modifyAt (kq : String) (p : List String)
    (f : List (String × GElem) → List (String × GElem)) (es : List (String × GElem)) :
    (es.map (fun e => if e.1 = kq then (e.1, modifyElemsAt e.2 p f) else e)).map Prod.fst
      = es.map Prod.fst := by
  simpa using keys_map_modify kq (fun x => modifyElemsAt x p f) es

theorem gLookup_eraseKey_ne (k m : String) (hne : k ≠ m)
    (es : List (String × GElem)) :
    gLookup k (eraseKey m es) = gLookup k es := by
  induction es with
  | nil => rfl
  | cons e rest ih =>
      obtain ⟨k1, v⟩ := e
      by_cases h1 : k1 = m <;> by_cases h2 : k1 = k <;>
        simp_all [gLookup, eraseKey]

theorem getAt_modify_self (p : List String) :
    ∀ (root : GElem) (nm : String) (es : List (String × GElem))
      (f : List (String × GElem) → List (String × GElem)),
      getAt root p = some (.grp nm es) →
      getAt (modifyElemsAt root p f) p = some (.grp nm (f es)) := by
  induction p with
  | nil =>
      intro root nm es f h
      simp only [getAt, Option.some.injEq] at h
      subst h
      simp [modifyElemsAt, getAt]
  | cons k p ih =>
      intro root nm es f h
      cases root with
      | varId i => simp [getAt] at h
      | grp rn res =>
          simp only [getAt] at h
          cases hl : gLookup k res with
          | none => rw [hl] at h; simp at h
          | some child =>
              rw [hl] at h
              simp only [modifyElemsAt, getAt]
              rw [gLookup_map_modifyAt k k p f res, if_pos rfl, hl]
              exact ih child nm es f h


theorem getAt_modify_other (p : List String) :
    ∀ (q : List String) (m : String) (root : GElem) (nm : String)
      (es : List (String × GElem)),
      getAt root p = some (.grp nm es) →
      q ≠ p → ¬ (q ++ [m]) <+: p →
      ∃ es2, getAt (modifyElemsAt root q (eraseKey m)) p = some (.grp nm es2) ∧
        es2.map Prod.fst = es.map Prod.fst := by
  induction p with
  | nil =>
      intro q m root nm es h hq1 hq2
      simp only [getAt, Option.some.injEq] at h
      subst h
      cases q with
      | nil => exact absurd rfl hq1
      | cons kq q =>
          refine ⟨(es.map (fun e => if e.1 = kq then (e.1, modifyElemsAt e.2 q (eraseKey m)) else e)),
            ?_, keys_map_modifyAt kq q (eraseKey m) es⟩
          simp [modifyElemsAt, getAt]
  | cons k p ih =>
      intro q m root nm es h hq1 hq2
      cases root with
      | varId i => simp [getAt] at h
      | grp rn res =>
          simp only [getAt] at h
          cases hl : gLookup k res with
          | none => rw [hl] at h; simp at h
          | some child =>
              rw [hl] at h
              cases q with
              | nil =>
                  -- deletion at this very node: `eraseKey m res`
                  have hmk : m ≠ k := by
                    intro hmk
                    exact hq2 ⟨p, by simp [hmk]⟩
                  refine ⟨es, ?_, rfl⟩
                  simp only [modifyElemsAt, getAt]
                  rw [gLookup_eraseKey_ne k m (fun hh => hmk hh.symm) res, hl]
                  exact h
              | cons kq q =>
                  by_cases hkq : kq = k
                  · subst hkq
                    have hq1' : q ≠ p := by
                      intro hh; exact hq1 (by rw [hh])
                    have hq2' : ¬ (q ++ [m]) <+: p := by
                      intro hh
                      obtain ⟨t, ht⟩ := hh
                      exact hq2 ⟨t, by rw [← ht]; simp⟩
                    obtain ⟨es2, h2, hk2⟩ := ih q m child nm es h hq1' hq2'
                    refine ⟨es2, ?_, hk2⟩
                    simp only [modifyElemsAt, getAt]
                    rw [gLookup_map_modifyAt kq kq q (eraseKey m) res, if_pos rfl, hl]
                    exact h2
                  · refine ⟨es, ?_, rfl⟩
                    simp only [modifyElemsAt, getAt]
                    rw [gLookup_map_modifyAt k kq q (eraseKey m) res,
                        if_neg (fun hh => hkq hh.symm), hl]
                    exact h


theorem getAt_performMigrations (p : List String) :
    ∀ (tagged : List (String × MoveTag)) (root : GElem) (nm : String)
      (es : List (String × GElem)),
      getAt root p = some (.grp nm es) →
      (∀ t ∈ tagged, delSafe p t) →
      ∃ es2, getAt (performMigrations root tagged) p = some (.grp nm es2) ∧
        es2.map Prod.fst = es.map Prod.fst := by
  intro tagged
  induction tagged with
  | nil =>
      intro root nm es h _
      exact ⟨es, by simpa [performMigrations] using h, rfl⟩
  | cons t rest ih =>
      intro root nm es h hsafe
      obtain ⟨n, tg⟩ := t
      cases tg with
      | moveHere o =>
          simp only [performMigrations]
          exact ih root nm es h (fun t ht => hsafe t (by simp [ht]))
      | migrateVar q o =>
          have hs := hsafe (n, .migrateVar q o) (by simp)
          obtain ⟨hs1, hs2⟩ := hs
          obtain ⟨es1, h1, hk1⟩ := getAt_modify_other p q n root nm es h hs1 hs2
          obtain ⟨es2, h2, hk2⟩ :=
            ih (modifyElemsAt root q (eraseKey n)) nm es1 h1
              (fun t ht => hsafe t (by simp [ht]))
          exact ⟨es2, by simpa [performMigrations] using h2, by rw [hk2, hk1]⟩
      | migrateGroup q o =>
          have hs := hsafe (n, .migrateGroup q o) (by simp)
          obtain ⟨hs1, hs2⟩ := hs
          obtain ⟨es1, h1, hk1⟩ := getAt_modify_other p q.dropLast n root nm es h hs1 hs2
          obtain ⟨es2, h2, hk2⟩ :=
            ih (modifyElemsAt root q.dropLast (eraseKey n)) nm es1 h1
              (fun t ht => hsafe t (by simp [ht]))
          exact ⟨es2, by simpa [performMigrations] using h2, by rw [hk2, hk1]⟩


theorem map_fst_filter (names : List String) (ges : List (String × GElem)) :
    (ges.filter (fun e => !(names.contains e.1))).map Prod.fst
      = (ges.map Prod.fst).filter (fun k => !(names.contains k)) := by
  induction ges with
  | nil => rfl
  | cons e rest ih =>
      simp only [List.elem_eq_mem] at ih ⊢
      by_cases h : e.1 ∈ names <;> simp [List.filter_cons, h, ih]

theorem length_le_filter_add (names : List String) (ges : List (String × GElem))
    (hND : (ges.map Prod.fst).Nodup) :
    ges.length ≤ (ges.filter (fun e => !(names.contains e.1))).length + names.length := by
  have hpart : (ges.filter (fun e => names.contains e.1)).length +
      (ges.filter (fun e => !(names.contains e.1))).length = ges.length :=
    (List.length_eq_length_filter_add _).symm
  have hkeysnd : ((ges.filter (fun e => names.contains e.1)).map Prod.fst).Nodup := by
    refine hND.sublist ?_
    exact List.Sublist.map Prod.fst (List.filter_sublist _)
  have hsubset : ((ges.filter (fun e => names.contains e.1)).map Prod.fst) ⊆ names := by
    intro k hk
    simp only [List.mem_map] at hk
    obtain ⟨e, he, hek⟩ := hk
    have := List.of_mem_filter he
    rw [hek] at this
    exact List.elem_iff.mp this
  have hlen : ((ges.filter (fun e => names.contains e.1)).map Prod.fst).length ≤
      names.length :=
    (List.subperm_of_subset hkeysnd hsubset).length_le
  simp only [List.length_map] at hlen
  omega


theorem moveOp_spec (root : GElem) (p : List String) (gname : String)
    (ges : List (String × GElem)) (elements : List String) (position : Int)
    (tagged : List (String × MoveTag))
    (hG : getAt root p = some (.grp gname ges))
    (hND : (ges.map Prod.fst).Nodup)
    (hpos1 : -1 ≤ position) (hpos2 : position ≤ (ges.length : Int))
    (hres : resolveAll root ges (dedupKeys elements) = some tagged)
    (hsafe : ∀ t ∈ tagged, delSafe p t) :
    ∃ root2 es2,
      moveOp root p elements position = .ok (root2, updateRequest root2) ∧
      getAt root2 p = some (.grp gname es2) ∧
      es2.map Prod.fst =
        (((ges.map Prod.fst).filter
            (fun k => !((dedupKeys elements).contains k))).take
          (if position = -1 then ges.length else position.toNat))
        ++ dedupKeys elements
        ++ (((ges.map Prod.fst).filter
            (fun k => !((dedupKeys elements).contains k))).drop
          (if position = -1 then ges.length else position.toNat)) := by
  have hcond : (decide (position < -1) || decide ((ges.length : Int) < position))
      = false := by
    simp only [Bool.or_eq_false_iff, decide_eq_false_iff_not]
    omega
  have htfst : tagged.map Prod.fst = dedupKeys elements :=
    resolveAll_fst root ges _ tagged hres
  have hefst : (tagged.map (fun nt => (nt.1, tagObj nt.2))).map Prod.fst
      = dedupKeys elements := by
    rw [← htfst]; simp
  have hntk : (ges.filter (fun e => !((dedupKeys elements).contains e.1))).map Prod.fst
      = (ges.map Prod.fst).filter (fun k => !((dedupKeys elements).contains k)) :=
    map_fst_filter _ ges
  have hntnd : ((ges.filter (fun e => !((dedupKeys elements).contains e.1))).map
      Prod.fst).Nodup := by
    rw [hntk]; exact hND.filter _
  have hdisj : ∀ k ∈ (ges.filter
      (fun e => !((dedupKeys elements).contains e.1))).map Prod.fst,
      k ∉ dedupKeys elements := by
    intro k hk
    rw [hntk] at hk
    have := List.of_mem_filter hk
    simpa using this
  have hposle : (if position = -1 then ges.length else position.toNat) ≤ ges.length := by
    by_cases hm : position = -1 <;> simp [hm] <;> omega
  have hgeslen : ges.length ≤
      (ges.filter (fun e => !((dedupKeys elements).contains e.1))).length
        + tagged.length := by
    have h1 := length_le_filter_add (dedupKeys elements) ges hND
    have hlen2 : tagged.length = (dedupKeys elements).length := by
      rw [← htfst]; simp
    omega
  have hnd3 : (([] : List (String × GElem)).map Prod.fst
      ++ (ges.filter (fun e => !((dedupKeys elements).contains e.1))).map Prod.fst
      ++ (tagged.map (fun nt => (nt.1, tagObj nt.2))).map Prod.fst).Nodup := by
    rw [hefst]
    simp only [List.map_nil, List.nil_append]
    rw [List.nodup_append]
    exact ⟨hntnd, dedupKeys_nodup elements, fun k hk => hdisj k hk⟩
  have hassemble := assembleLoop_insert (tagged.map (fun nt => (nt.1, tagObj nt.2)))
    (if position = -1 then ges.length else position.toNat)
    ((ges.filter (fun e => !((dedupKeys elements).contains e.1))).length
      + tagged.length + 1)
    0 (if position = -1 then ges.length else position.toNat)
    (ges.filter (fun e => !((dedupKeys elements).contains e.1))) []
    (by omega) (by omega) (by omega) hnd3
  obtain ⟨es1, hroot1, hk1⟩ := getAt_performMigrations p tagged root gname ges hG hsafe
  have hget2 := getAt_modify_self p (performMigrations root tagged) gname es1
      (fun _ => assembleLoop (tagged.map (fun nt => (nt.1, tagObj nt.2)))
        (if position = -1 then ges.length else position.toNat) 0
        ((ges.filter (fun e => !((dedupKeys elements).contains e.1))).length
          + tagged.length + 1)
        (ges.filter (fun e => !((dedupKeys elements).contains e.1))) []) hroot1
  refine ⟨_, _, ?_, hget2, ?_⟩
  · simp only [moveOp, hG, hres, hcond, Bool.false_eq_true, if_false]
  · simp only []
    rw [hassemble]
    simp only [List.nil_append, List.map_append, List.map_take, List.map_drop,
      hntk, hefst]


theorem firstIndexOf_lt_length (element : String) (K : List String)
    (h : element ∈ K) : firstIndexOf element K < K.length := by
  induction K with
  | nil => simp at h
  | cons k rest ih =>
      by_cases hk : k = element
      · simp [firstIndexOf, hk]
      · have hmem : element ∈ rest := by
          rcases List.mem_cons.mp h with h1 | h1
          · exact absurd h1.symm hk
          · exact h1
        simp only [firstIndexOf, if_neg hk, List.length_cons]
        have := ih hmem
        omega

theorem getD_firstIndexOf (element : String) (K : List String)
    (h : element ∈ K) : K.getD (firstIndexOf element K) "" = element := by
  induction K with
  | nil => simp at h
  | cons k rest ih =>
      by_cases hk : k = element
      · simp [firstIndexOf, hk]
      · have hmem : element ∈ rest := by
          rcases List.mem_cons.mp h with h1 | h1
          · exact absurd h1.symm hk
          · exact h1
        simp only [firstIndexOf, if_neg hk]
        simpa using ih hmem

theorem filter_not_singleton (element : String) (K : List String)
    (hnd : K.Nodup) (hmem : element ∈ K) :
    K.filter (fun k => !([element].contains k)) =
      K.take (firstIndexOf element K) ++ K.drop (firstIndexOf element K + 1) := by
  induction K with
  | nil => simp at hmem
  | cons k rest ih =>
      by_cases hk : k = element
      · subst hk
        have hnotin : k ∉ rest := (List.nodup_cons.mp hnd).1
        have hidx : firstIndexOf k (k :: rest) = 0 := by simp [firstIndexOf]
        rw [hidx]
        simp only [List.take_zero, List.nil_append, List.drop_succ_cons,
          List.drop_zero]
        rw [List.filter_cons]
        have hck : ([k].contains k) = true := by simp
        simp only [hck, Bool.not_true, Bool.false_eq_true, if_false]
        apply List.filter_eq_self.mpr
        intro a ha
        have hne : a ≠ k := fun haa => hnotin (haa ▸ ha)
        simp [hne]
      · have hmem2 : element ∈ rest := by
          rcases List.mem_cons.mp hmem with h1 | h1
          · exact absurd h1.symm hk
          · exact h1
        have hknd : rest.Nodup := (List.nodup_cons.mp hnd).2
        rw [List.filter_cons]
        have hcontk : ([element].contains k) = false := by
          simp only [List.contains_cons, List.contains_nil, Bool.or_false]
          exact beq_eq_false_iff_ne.mpr hk
        simp only [hcontk, Bool.not_false, if_true]
        rw [ih hknd hmem2]
        simp only [firstIndexOf, if_neg hk]
        simp [List.take_succ_cons, List.drop_succ_cons]

theorem take_one_drop (K : List String) (j : Nat) (h : j < K.length) :
    (K.drop j).take 1 = [K.getD j ""] := by
  induction K generalizing j with
  | nil => simp at h
  | cons a rest ih =>
      cases j with
      | zero => simp
      | succ j => simpa using ih j (by simpa using h)


/-- C10: boundary moves are identities — `move_up` on the first element
and `move_down` on the last element leave the group unchanged and issue
no remote request; on any other existing element they shift it exactly
one position toward the front or the back respectively (performing the
full-graph update). -/
theorem move_up_down_spec (root : GElem) (p : List String) (gname : String)
    (ges : List (String × GElem)) (element : String)
    (hG : getAt root p = some (.grp gname ges))
    (hND : (ges.map Prod.fst).Nodup)
    (hmem : element ∈ ges.map Prod.fst) :
    (firstIndexOf element (ges.map Prod.fst) = 0 →
      moveUpOp root p element = .ok (root, [])) ∧
    (firstIndexOf element (ges.map Prod.fst) + 1 = ges.length →
      moveDownOp root p element = .ok (root, [])) ∧
    (∀ i, firstIndexOf element (ges.map Prod.fst) = i → 1 ≤ i →
      ∃ root2 es2, moveUpOp root p element = .ok (root2, updateRequest root2) ∧
        getAt root2 p = some (.grp gname es2) ∧
        es2.map Prod.fst = (ges.map Prod.fst).take (i - 1)
          ++ [element] ++ [(ges.map Prod.fst).getD (i - 1) ""]
          ++ (ges.map Prod.fst).drop (i + 1)) ∧
    (∀ i, firstIndexOf element (ges.map Prod.fst) = i → i + 1 < ges.length →
      ∃ root2 es2, moveDownOp root p element = .ok (root2, updateRequest root2) ∧
        getAt root2 p = some (.grp gname es2) ∧
        es2.map Prod.fst = (ges.map Prod.fst).take i
          ++ [(ges.map Prod.fst).getD (i + 1) ""] ++ [element]
          ++ (ges.map Prod.fst).drop (i + 2)) := by
  have hcont : (ges.map Prod.fst).contains element = true := List.elem_iff.mpr hmem
  have hlt : firstIndexOf element (ges.map Prod.fst) < ges.length := by
    simpa using firstIndexOf_lt_length element _ hmem
  refine ⟨?_, ?_, ?_, ?_⟩
  · intro h0
    simp only [moveUpOp, hG, hcont, Bool.not_true, Bool.false_eq_true, if_false, h0]
    norm_num
  · intro hlast
    simp only [moveDownOp, hG, hcont, Bool.not_true, Bool.false_eq_true, if_false]
    rw [if_pos (by omega)]
  · intro i hi h1
    simp only [moveUpOp, hG, hcont, Bool.not_true, Bool.false_eq_true, if_false, hi]
    rw [if_neg (by omega)]
    obtain ⟨v, hv⟩ := gLookup_isSome_of_mem element ges hmem
    have hdedup : dedupKeys [element] = [element] := by simp [dedupKeys]
    have hres : resolveAll root ges (dedupKeys [element])
        = some [(element, .moveHere v)] := by
      rw [hdedup]; simp [resolveAll, resolveElement, hv]
    obtain ⟨root2, es2, hmv, hget, hkeys⟩ :=
      moveOp_spec root p gname ges [element] ((i : Int) - 1) [(element, .moveHere v)]
        hG hND (by omega) (by omega) hres
        (by intro t ht; rw [List.mem_singleton.mp ht]; trivial)
    refine ⟨root2, es2, hmv, hget, ?_⟩
    rw [hkeys, hdedup]
    rw [show (if ((i : Int) - 1) = -1 then ges.length else ((i : Int) - 1).toNat)
          = i - 1 by rw [if_neg (by omega)]; omega]
    rw [filter_not_singleton element _ hND hmem, hi]
    have htklen : ((ges.map Prod.fst).take i).length = i := by
      simp
      omega
    rw [List.take_append_eq_append_take, List.drop_append_eq_append_drop, htklen]
    rw [List.take_take, Nat.min_eq_left (by omega)]
    rw [List.drop_take i (i - 1)]
    rw [show i - (i - 1) = 1 by omega, show i - 1 - i = 0 by omega]
    rw [take_one_drop _ (i - 1) (by simp; omega)]
    simp
  · intro i hi hlast
    simp only [moveDownOp, hG, hcont, Bool.not_true, Bool.false_eq_true, if_false, hi]
    rw [if_neg (by omega)]
    obtain ⟨v, hv⟩ := gLookup_isSome_of_mem element ges hmem
    have hdedup : dedupKeys [element] = [element] := by simp [dedupKeys]
    have hres : resolveAll root ges (dedupKeys [element])
        = some [(element, .moveHere v)] := by
      rw [hdedup]; simp [resolveAll, resolveElement, hv]
    obtain ⟨root2, es2, hmv, hget, hkeys⟩ :=
      moveOp_spec root p gname ges [element] ((i : Int) + 1) [(element, .moveHere v)]
        hG hND (by omega) (by omega) hres
        (by intro t ht; rw [List.mem_singleton.mp ht]; trivial)
    refine ⟨root2, es2, hmv, hget, ?_⟩
    rw [hkeys, hdedup]
    rw [show (if ((i : Int) + 1) = -1 then ges.length else ((i : Int) + 1).toNat)
          = i + 1 by rw [if_neg (by omega)]; omega]
    rw [filter_not_singleton element _ hND hmem, hi]
    have htklen : ((ges.map Prod.fst).take i).length = i := by
      simp
      omega
    rw [List.take_append_eq_append_take, List.drop_append_eq_append_drop, htklen]
    rw [List.take_take, Nat.min_eq_right (by omega)]
    rw [show i + 1 - i = 1 by omega]
    rw [take_one_drop _ (i + 1) (by simpa using hlast)]
    rw [List.drop_eq_nil_of_le (by rw [htklen]; omega)]
    rw [List.drop_drop]
    rw [show i + 1 + 1 = i + 2 from rfl]
    simp


/-- C6 (amended): `Group.move(elements, position)` raises ValueError when
the position is less than -1 or greater than the number of elements
currently in the group, and when an element is named neither in the
group, nor as a variable elsewhere in the order, nor as a group name;
otherwise it reassembles the group so that the moved elements appear
consecutively starting at the requested position or at the number of
remaining non-moved elements, whichever is smaller (position -1 meaning
the end), with the non-moved elements keeping their previous relative
order around them. -/
theorem group_move_spec (root : GElem) (p : List String) (gname : String)
    (ges : List (String × GElem)) (elements : List String) (position : Int)
    (hG : getAt root p = some (.grp gname ges)) :
    ((position < -1 ∨ (ges.length : Int) < position) →
      moveOp root p elements position = .error (.valueError "Invalid position")) ∧
    (-1 ≤ position → position ≤ (ges.length : Int) →
      (∃ n ∈ dedupKeys elements, resolveElement root ges n = none) →
      moveOp root p elements position
        = .error (.valueError "Invalid alias/group name")) ∧
    (∀ tagged, (ges.map Prod.fst).Nodup →
      -1 ≤ position → position ≤ (ges.length : Int) →
      resolveAll root ges (dedupKeys elements) = some tagged →
      (∀ t ∈ tagged, delSafe p t) →
      ∃ root2 es2,
        moveOp root p elements position = .ok (root2, updateRequest root2) ∧
        getAt root2 p = some (.grp gname es2) ∧
        es2.map Prod.fst =
          (((ges.map Prod.fst).filter
              (fun k => !((dedupKeys elements).contains k))).take
            (if position = -1 then ges.length else position.toNat))
          ++ dedupKeys elements
          ++ (((ges.map Prod.fst).filter
              (fun k => !((dedupKeys elements).contains k))).drop
            (if position = -1 then ges.length else position.toNat))) := by
  refine ⟨?_, ?_, ?_⟩
  · intro hbad
    have hcond : (decide (position < -1) || decide ((ges.length : Int) < position))
        = true := by
      rcases hbad with h | h <;> simp [h]
    simp only [moveOp, hG, hcond, if_true]
  · intro h1 h2 hx
    have hnone : resolveAll root ges (dedupKeys elements) = none :=
      (resolveAll_none_iff root ges (dedupKeys elements)).mpr hx
    have hcond : (decide (position < -1) || decide ((ges.length : Int) < position))
        = false := by
      simp only [Bool.or_eq_false_iff, decide_eq_false_iff_not]
      omega
    simp only [moveOp, hG, hcond, Bool.false_eq_true, if_false, hnone]
  · intro tagged hND hp1 hp2 hres hsafe
    exact moveOp_spec root p gname ges elements position tagged hG hND hp1 hp2
      hres hsafe


/-- C6 counterexample: with position 2 on a two-element group, moving
['a'] succeeds but places 'a' at index 1, not at the requested
position 2 — the insertion point is clamped to the number of remaining
non-moved elements, refuting the claim as stated. -/
theorem group_move_position_clamped :
    moveOp (GElem.grp "__root__" [("a", GElem.varId "1"), ("b", GElem.varId "2")])
        [] ["a"] 2
      = .ok (GElem.grp "__root__" [("b", GElem.varId "2"), ("a", GElem.varId "1")],
             [.putOrder (.obj [("element", .str "shoji:order"),
                               ("graph", .arr [.str "../2/", .str "../1/"])])]) ∧
    firstIndexOf "a"
      ((elemsOf (GElem.grp "__root__"
        [("b", GElem.varId "2"), ("a", GElem.varId "1")])).map Prod.fst) = 1 ∧
    (1 : Nat) ≠ 2 := by
  refine ⟨?_, by decide, by decide⟩
  simp [moveOp, getAt, gLookup, dedupKeys, resolveAll, resolveElement,
    assembleLoop, performMigrations, tagObj, modifyElemsAt, updateRequest,
    orderPayload, buildGraphStructure, buildElems, elemsOf, upsert, eraseKey]

/-- C6 witness: the amended theorem applied to a concrete move. -/
theorem group_move_spec_witness :
    ∃ root2 es2,
      moveOp (GElem.grp "__root__"
          [("a", GElem.varId "1"), ("b", GElem.varId "2"), ("c", GElem.varId "3")])
        [] ["a"] 1 = .ok (root2, updateRequest root2) ∧
      getAt root2 [] = some (.grp "__root__" es2) ∧
      es2.map Prod.fst = ["b", "a", "c"] :=
  (group_move_spec
      (GElem.grp "__root__"
        [("a", GElem.varId "1"), ("b", GElem.varId "2"), ("c", GElem.varId "3")])
      [] "__root__"
      [("a", GElem.varId "1"), ("b", GElem.varId "2"), ("c", GElem.varId "3")]
      ["a"] 1 rfl).2.2
    [("a", .moveHere (.varId "1"))]
    (by decide) (by decide) (by decide) rfl
    (by intro t ht; rw [List.mem_singleton.mp ht]; trivial)

/-- C10 witness: the theorem applied to a concrete two-element group. -/
theorem move_up_down_spec_witness :
    ∃ root2 es2,
      moveUpOp (GElem.grp "__root__" [("a", GElem.varId "1"), ("b", GElem.varId "2")])
        [] "b" = .ok (root2, updateRequest root2) ∧
      getAt root2 [] = some (.grp "__root__" es2) ∧
      es2.map Prod.fst = ["b", "a"] :=
  ((move_up_down_spec
      (GElem.grp "__root__" [("a", GElem.varId "1"), ("b", GElem.varId "2")])
      [] "__root__" [("a", GElem.varId "1"), ("b", GElem.varId "2")]
      "b" rfl (by decide) (by decide)).2.2.1) 1 rfl (by decide)


end Scrunch
